import Mathlib

/-!
# Verification of the `tradinghours` phase-generation engine

A shallow embedding of `src/tradinghours/market.py` (class `Market`):
the schedule filter cascade, the holiday-driven weekday fallback, the
phase materializer, and the market lookup functions, together with
theorems settling the specification claims.

Modelling conventions:
* Python `dt.date` values are modelled by `Date` (a year/month/day record)
  and, inside the generation loop, by their proleptic-Gregorian ordinal
  (`Date.toOrdinal`, matching Python's `date.toordinal`).
* ISO strings (`date.isoformat()`, `HH:MM:SS` times) are Lean `String`s;
  the source compares such strings lexicographically and so do we.
* Database rows are records; the read-only store is a record of row lists.
* Fallible code returns `Except Err`; `one_or_none`, missing season
  definitions and missing phase types produce errors as in the source.
* A timezone is kept as its IANA name; a zoned instant is a local
  (ordinal, time-of-day) pair tagged with its zone, compared locally
  (a fixed-offset model of zone attachment).
-/

namespace TradingHours

/-! ## Calendar dates (Python `datetime.date`) -/

structure Date where
  year : Nat
  month : Nat
  day : Nat
deriving DecidableEq, Repr

def isLeap (y : Nat) : Bool :=
  (y % 4 == 0 && y % 100 != 0) || (y % 400 == 0)

def daysInMonth (y m : Nat) : Nat :=
  if m = 2 then (if isLeap y then 29 else 28)
  else if m = 4 ∨ m = 6 ∨ m = 9 ∨ m = 11 then 30
  else 31

/-- Days in the months strictly before month `m` of year `y`. -/
def daysBeforeMonth (y m : Nat) : Nat :=
  match m with
  | 0 => 0
  | Nat.succ m' => daysBeforeMonth y m' + (if m' = 0 then 0 else daysInMonth y m')

/-- Python's `date.toordinal`: day count in the proleptic Gregorian
calendar with `0001-01-01` mapping to `1`. -/
def Date.toOrdinal (d : Date) : Nat :=
  365 * (d.year - 1) + (d.year - 1) / 4 - (d.year - 1) / 100 + (d.year - 1) / 400
    + daysBeforeMonth d.year d.month + d.day

/-- Inverse of `Date.toOrdinal` (civil-from-days on a March-based year). -/
def Date.fromOrdinal (ord : Nat) : Date :=
  let z := ord + 305
  let era := z / 146097
  let doe := z % 146097
  let yoe := (doe - doe / 1460 + doe / 36524 - doe / 146096) / 365
  let y := yoe + era * 400
  let doy := doe - (365 * yoe + yoe / 4 - yoe / 100)
  let mp := (5 * doy + 2) / 153
  let dd := doy - (153 * mp + 2) / 5 + 1
  let m := if mp < 10 then mp + 3 else mp - 9
  ⟨if m ≤ 2 then y + 1 else y, m, dd⟩

/-- Python's `date.weekday` on ordinals: 0 = Monday … 6 = Sunday. -/
def weekdayOfOrdinal (ord : Nat) : Nat :=
  (ord + 6) % 7

def pad2 (n : Nat) : String :=
  if n < 10 then "0" ++ toString n else toString n

def pad4 (n : Nat) : String :=
  if n < 10 then "000" ++ toString n
  else if n < 100 then "00" ++ toString n
  else if n < 1000 then "0" ++ toString n
  else toString n

/-- Python's `date.isoformat`: `YYYY-MM-DD`. -/
def Date.isoformat (d : Date) : String :=
  pad4 d.year ++ "-" ++ pad2 d.month ++ "-" ++ pad2 d.day

/-- Split a character list at every occurrence of `c` (separator dropped). -/
def splitOnChar (c : Char) : List Char → List (List Char)
  | [] => [[]]
  | x :: xs =>
    let rest := splitOnChar c xs
    if x = c then [] :: rest
    else match rest with
      | [] => [[x]]
      | r :: rs => (x :: r) :: rs

/-- Lexicographic `<` on character lists (Python's string comparison). -/
def charsLt : List Char → List Char → Bool
  | [], [] => false
  | [], _ :: _ => true
  | _ :: _, [] => false
  | a :: as, b :: bs =>
    if a < b then true else if b < a then false else charsLt as bs

/-- Python's `<` on strings. -/
def strLt (a b : String) : Bool :=
  charsLt a.data b.data

/-- Python's `<=` on strings (total order: `a <= b` iff not `b < a`). -/
def strLe (a b : String) : Bool :=
  !charsLt b.data a.data

def natOfDigits : List Char → Option Nat
  | [] => none
  | l => l.foldl (fun acc c =>
      match acc with
      | none => none
      | some n => if c.isDigit then some (n * 10 + (c.toNat - '0'.toNat)) else none)
      (some 0)

/-- Python's `date.fromisoformat`: strict `YYYY-MM-DD`. -/
def parseDate (s : String) : Option Date :=
  match splitOnChar '-' s.data with
  | [ys, ms, ds] =>
    if ys.length = 4 ∧ ms.length = 2 ∧ ds.length = 2 then
      match natOfDigits ys, natOfDigits ms, natOfDigits ds with
      | some y, some m, some d =>
        if 1 ≤ y ∧ y ≤ 9999 ∧ 1 ≤ m ∧ m ≤ 12 ∧ 1 ≤ d ∧ d ≤ daysInMonth y m then
          some ⟨y, m, d⟩
        else none
      | _, _, _ => none
    else none
  | _ => none

/-! ## Database rows and the read-only store -/

/-- A `schedules` table row, as the engine reads it (spec §3). Optional
dates/seasons are `Option String`; times are `HH:MM:SS` strings. -/
structure Schedule where
  fin_id : String
  schedule_group : String
  timezone : String
  phase_type : String
  phase_name : String
  phase_memo : String
  days : String
  start : String
  «end» : String
  offset_days : Nat
  duration : Nat
  in_force_start_date : Option String
  in_force_end_date : Option String
  season_start : Option String
  season_end : Option String
deriving DecidableEq, Repr

structure MarketHoliday where
  fin_id : String
  date : String
  holiday_name : String
  schedule : String
  settlement : String
  observed : Bool
  memo : String
  status : String
deriving DecidableEq, Repr

structure SeasonRow where
  season : String
  year : Nat
  date : String
deriving DecidableEq, Repr

structure PhaseTypeRow where
  name : String
  status : String
  settlement : String
deriving DecidableEq, Repr

structure MicMappingRow where
  mic : String
  fin_id : String
deriving DecidableEq, Repr

structure MarketRow where
  fin_id : String
  exchange_name : String
  timezone : String
  mic : String
  replaced_by : String
deriving DecidableEq, Repr

/-- The read-only store (`store.db`): one list of rows per table. -/
structure Store where
  markets : List MarketRow
  schedules : List Schedule
  holidays : List MarketHoliday
  seasons : List SeasonRow
  phase_types : List PhaseTypeRow
  mic_mappings : List MicMappingRow
deriving Repr

/-- Errors raised by the engine (spec §7). -/
inductive Err where
  | invalidArgument
  | dataMissing
  | multipleResults
deriving DecidableEq, Repr

instance {ε α : Type} [DecidableEq ε] [DecidableEq α] :
    DecidableEq (Except ε α) := fun a b => by
  cases a <;> cases b
  case error.error e f => exact decidable_of_iff (e = f) (by simp)
  case ok.ok x y => exact decidable_of_iff (x = y) (by simp)
  case error.ok => exact isFalse (by simp)
  case ok.error => exact isFalse (by simp)

/-- SQLAlchemy's `one_or_none`: no row gives `none`, one row gives it,
several raise. -/
def one_or_none {α : Type} (rows : List α) : Except Err (Option α) :=
  match rows with
  | [] => .ok none
  | [r] => .ok (some r)
  | _ => .error .multipleResults

/-! ## `util.weekdays_match` and the validators

The modules `tradinghours.util` and `tradinghours.validate` are not part
of the sources under verification, so their behaviour is taken from the
spec. -/

def dayNames : List (List Char × Nat) :=
  [("Mon".data, 0), ("Tue".data, 1), ("Wed".data, 2), ("Thu".data, 3),
   ("Fri".data, 4), ("Sat".data, 5), ("Sun".data, 6)]

def dayIndex (t : List Char) : Option Nat :=
  (dayNames.find? (fun p => p.1 = t)).map (·.2)

def weekdayTokenMatch (tok : List Char) (w : Nat) : Bool :=
  match splitOnChar '-' tok with
  | [d] => dayIndex d = some w
  | [a, b] =>
    match dayIndex a, dayIndex b with
    | some ia, some ib =>
      if ia ≤ ib then ia ≤ w ∧ w ≤ ib else ia ≤ w ∨ w ≤ ib
    | _, _ => false
  | _ => false

/-- Modelled from the spec: `weekdays_match` of the missing
`tradinghours.util` module. A `days` pattern is a comma list of day names
(`Mon` … `Sun`) and hyphen ranges; ranges are inclusive and wrap
(`Fri-Mon` means Fri, Sat, Sun, Mon); weekdays are 0 = Monday … 6 = Sunday. -/
def weekdays_match (days : String) (weekday : Nat) : Bool :=
  (splitOnChar ',' days.data).any (fun tok => weekdayTokenMatch tok weekday)

/-- ASCII lower-to-upper case table (Python's `str.upper` on the
identifier alphabet). -/
def asciiUpperMap : List (Char × Char) :=
  [('a','A'), ('b','B'), ('c','C'), ('d','D'), ('e','E'), ('f','F'), ('g','G'),
   ('h','H'), ('i','I'), ('j','J'), ('k','K'), ('l','L'), ('m','M'), ('n','N'),
   ('o','O'), ('p','P'), ('q','Q'), ('r','R'), ('s','S'), ('t','T'), ('u','U'),
   ('v','V'), ('w','W'), ('x','X'), ('y','Y'), ('z','Z')]

def charUpper (c : Char) : Char :=
  match asciiUpperMap.find? (fun p => p.1 = c) with
  | some p => p.2
  | none => c

/-- Python's `str.upper` (on the ASCII identifiers the engine handles). -/
def strUpper (s : String) : String :=
  ⟨s.data.map charUpper⟩

def charLower (c : Char) : Char :=
  match asciiUpperMap.find? (fun p => p.2 = c) with
  | some p => p.1
  | none => c

/-- Python's `str.lower` (on the ASCII names the engine handles). -/
def strLower (s : String) : String :=
  ⟨s.data.map charLower⟩

/-- Python's `StrOrDate` argument type. -/
inductive StrOrDate where
  | str (s : String)
  | date (d : Date)
deriving DecidableEq, Repr

/-- Modelled from the spec: `validate_date_arg` of the missing
`tradinghours.validate` module — coerce the argument to a date, raising
`InvalidArgument` on an unparseable string. -/
def validate_date_arg (v : StrOrDate) : Except Err Date :=
  match v with
  | .date d => .ok d
  | .str s =>
    match parseDate s with
    | some d => .ok d
    | none => .error .invalidArgument

/-- Modelled from the spec: `validate_range_args` of the missing
`tradinghours.validate` module — raise `InvalidArgument` when
`start > end`. -/
def validate_range_args (s e : Date) : Except Err (Date × Date) :=
  if e.toOrdinal < s.toOrdinal then .error .invalidArgument else .ok (s, e)

/-- Modelled from the spec: `validate_str_arg` of the missing
`tradinghours.validate` module — reject an empty identifier and return
the string uppercased (the spec's "uppercase the MIC before lookup"). -/
def validate_str_arg (v : String) : Except Err String :=
  if v = "" then .error .invalidArgument else .ok (strUpper v)

/-- Modelled from the spec: `validate_finid_arg` of the missing
`tradinghours.validate` module — reject a malformed (empty) FinID. -/
def validate_finid_arg (v : String) : Except Err String :=
  if v = "" then .error .invalidArgument else .ok v

/-! ## Dynamic-model helpers used by `market.py` -/

/-- Modelled from the spec: `Schedule.has_season` of the missing
`dynamic_models` module — a schedule is seasonal when it carries season
bounds. -/
def Schedule.has_season (s : Schedule) : Bool :=
  s.season_start.isSome || s.season_end.isSome

/-- Modelled from the spec: `Schedule.is_in_force` of the missing
`dynamic_models` module — keep iff
`in_force_start_date ≤ date ≤ in_force_end_date`, a missing bound being
−∞ / +∞ (comparisons on ISO strings). -/
def Schedule.is_in_force (s : Schedule) (dstr : String) : Bool :=
  (match s.in_force_start_date with
   | none => true
   | some d => strLe d dstr) &&
  (match s.in_force_end_date with
   | none => true
   | some d => strLe dstr d)

/-- Modelled from the spec: `SeasonDefinition.get` of the missing
`dynamic_models` module — resolve a (season-name, year) pair to its date;
a missing pair is a data error. -/
def SeasonDefinition.get (store : Store) (name : Option String) (year : Nat) :
    Except Err String :=
  match name with
  | none => .error .dataMissing
  | some n =>
    match store.seasons.find? (fun r => r.season == n && r.year == year) with
    | some r => .ok r.date
    | none => .error .dataMissing

/-- Modelled from the spec: `Schedule.is_group_open` of the missing
`dynamic_models` module — a group is open iff at least one of its
schedules references a phase-type whose status is `Open`. -/
def Schedule.is_group_open (store : Store) (group : String) : Bool :=
  store.schedules.any (fun s =>
    strLower s.schedule_group == strLower group &&
    store.phase_types.any (fun pt => pt.name == s.phase_type && pt.status == "Open"))

/-- `PhaseType.as_dict()[name]`: look up a phase type by name. -/
def phase_types_lookup (store : Store) (name : String) : Option PhaseTypeRow :=
  store.phase_types.find? (fun pt => pt.name == name)

/-! ## `market.py`: holiday index and the filter cascade -/

/-- The holiday rows of `list_holidays(start, end)`: market rows whose
ISO date lies in `[startIso, endIso]`. -/
def holidays_between (store : Store) (finid startIso endIso : String) :
    List MarketHoliday :=
  store.holidays.filter (fun h =>
    h.fin_id == finid && strLe startIso h.date && strLe h.date endIso)

/-- Lookup in the dict built by `list_holidays(..., as_dict=True)`:
the last row read for a date wins. -/
def holiday_dict_get (hs : List MarketHoliday) (dstr : String) :
    Option MarketHoliday :=
  (hs.filter (fun h => h.date == dstr)).getLast?

/-- `Market._pick_schedule_group`. -/
def pick_schedule_group (store : Store) (holidays : List MarketHoliday)
    (dstr : String) : String × Bool :=
  match holiday_dict_get holidays dstr with
  | some found => (strLower found.schedule, Schedule.is_group_open store (strLower found.schedule))
  | none => ("regular", false)

/-- `Market._filter_schedule_group`. -/
def filter_schedule_group (schedule_group : String) (schedules : List Schedule) :
    List Schedule :=
  schedules.filter (fun current => strLower current.schedule_group == strLower schedule_group)

/-- `Market._filter_inforce`. -/
def filter_inforce (dstr : String) (schedules : List Schedule) : List Schedule :=
  schedules.filter (fun current => current.is_in_force dstr)

/-- The schedules yielded by one iteration of `Market._filter_season`:
two independent `if` statements, each able to yield `current`. -/
def season_yields (store : Store) (some_date : Date) (current : Schedule) :
    Except Err (List Schedule) :=
  if !current.has_season then .ok [current]
  else do
    let start_date ← SeasonDefinition.get store current.season_start some_date.year
    let end_date ← SeasonDefinition.get store current.season_end some_date.year
    let some_date_str := some_date.isoformat
    let fromWrap :=
      if strLt end_date start_date then
        if strLe some_date_str end_date || strLe start_date some_date_str then [current] else []
      else []
    let fromRange :=
      if strLe start_date some_date_str && strLe some_date_str end_date then [current] else []
    .ok (fromWrap ++ fromRange)

/-- `Market._filter_season`. -/
def filter_season (store : Store) (some_date : Date) :
    List Schedule → Except Err (List Schedule)
  | [] => .ok []
  | current :: rest => do
    let l ← season_yields store some_date current
    let r ← filter_season store some_date rest
    .ok (l ++ r)

/-- `Market._filter_weekdays`. -/
def filter_weekdays (weekday : Nat) (schedules : List Schedule) : List Schedule :=
  schedules.filter (fun current => weekdays_match current.days weekday)

/-! ## The weekday fallback loop -/

/-- `6 if weekday == 0 else weekday - 1`. -/
def prevWeekday (w : Nat) : Nat :=
  if w = 0 then 6 else w - 1

/-- The `while not fallback_schedules and fallback_weekday != current_weekday`
loop of `generate_phases`, with explicit fuel (the source loop visits at
most the six other weekdays, so any fuel ≥ 6 gives the loop's value). -/
def fallbackWhile (before_weekdays : List Schedule) (current_weekday : Nat) :
    Nat → Nat → List Schedule
  | _, 0 => []
  | fallback_weekday, fuel + 1 =>
    if fallback_weekday = current_weekday then []
    else
      let fallback_schedules :=
        before_weekdays.filter (fun s => weekdays_match s.days fallback_weekday)
      if fallback_schedules.isEmpty then
        fallbackWhile before_weekdays current_weekday (prevWeekday fallback_weekday) fuel
      else fallback_schedules

/-! ## Per-date schedule selection and phase materialization -/

/-- Sort key of `sorted(found_schedules, key=lambda s: (s.start, s.duration))`. -/
def schedLe (s t : Schedule) : Prop :=
  strLt s.start t.start = true ∨ (s.start = t.start ∧ s.duration ≤ t.duration)

instance : DecidableRel schedLe := fun s t => by
  unfold schedLe; infer_instance

/-- The loop body of `generate_phases` up to the sort: stages 1–5 of the
cascade plus the weekday fallback for one date (given as an ordinal). -/
def found_schedules_for_date (store : Store) (all_schedules : List Schedule)
    (holidays : List MarketHoliday) (current : Nat) : Except Err (List Schedule) := do
  let current_date := Date.fromOrdinal current
  let current_date_str := current_date.isoformat
  let current_weekday := weekdayOfOrdinal current
  let (schedule_group, fallback) := pick_schedule_group store holidays current_date_str
  let schedules := filter_schedule_group schedule_group all_schedules
  let schedules := filter_inforce current_date_str schedules
  let before_weekdays ← filter_season store current_date schedules
  let found_schedules := filter_weekdays current_weekday before_weekdays
  let found_schedules :=
    if found_schedules.isEmpty && fallback then
      fallbackWhile before_weekdays current_weekday (prevWeekday current_weekday) 7
    else found_schedules
  .ok (List.insertionSort schedLe found_schedules)

/-- A zoned instant: local calendar day (ordinal), local `HH:MM:SS`
time-of-day, and the attached IANA zone name. -/
structure ZonedDateTime where
  ordinal : Nat
  time : String
  tz : String
deriving DecidableEq, Repr

/-- An emitted phase (`Phase(dict(...))` of the source). -/
structure Phase where
  phase_type : String
  phase_name : String
  phase_memo : String
  status : String
  settlement : String
  start : ZonedDateTime
  «end» : ZonedDateTime
deriving DecidableEq, Repr

def mkPhase (pt : PhaseTypeRow) (s : Schedule) (start_ord end_ord : Nat) : Phase :=
  { phase_type := s.phase_type
    phase_name := s.phase_name
    phase_memo := s.phase_memo
    status := pt.status
    settlement := pt.settlement
    start := ⟨start_ord, s.start, s.timezone⟩
    «end» := ⟨end_ord, s.«end», s.timezone⟩ }

/-- The `for current_schedule in found_schedules` emission loop: the end
date is the current date plus `offset_days`, and a phase is emitted only
when `end_date >= start` (`wstart`, the requested window start). -/
def materialize_phases (store : Store) (wstart current : Nat) :
    List Schedule → Except Err (List Phase)
  | [] => .ok []
  | current_schedule :: rest =>
    let end_ord := current + current_schedule.offset_days
    if wstart ≤ end_ord then
      match phase_types_lookup store current_schedule.phase_type with
      | none => .error .dataMissing
      | some pt => do
        let tail ← materialize_phases store wstart current rest
        .ok (mkPhase pt current_schedule current end_ord :: tail)
    else
      materialize_phases store wstart current rest

/-- One full iteration of the date loop of `generate_phases`. -/
def phases_for_date (store : Store) (all_schedules : List Schedule)
    (holidays : List MarketHoliday) (wstart current : Nat) :
    Except Err (List Phase) := do
  let found ← found_schedules_for_date store all_schedules holidays current
  materialize_phases store wstart current found

/-- The `while current_date <= end` loop, driven by the explicit list of
ordinals to visit. -/
def run_dates (store : Store) (all_schedules : List Schedule)
    (holidays : List MarketHoliday) (wstart : Nat) :
    List Nat → Except Err (List Phase)
  | [] => .ok []
  | d :: ds => do
    let ph ← phases_for_date store all_schedules holidays wstart d
    let rest ← run_dates store all_schedules holidays wstart ds
    .ok (ph ++ rest)

/-! ## The public `Market` operations -/

/-- `MAX_OFFSET_DAYS`: arbitrary max offset days for TradingHours data. -/
def MAX_OFFSET_DAYS : Nat := 2

def optStrLt : Option String → Option String → Bool
  | none, some _ => true
  | some a, some b => strLt a b
  | _, _ => false

/-- The `order_by` of `list_schedules`: lexicographic on
(schedule_group, in_force_start_date, season_start, start, end), each
optional column nulls-first ascending. -/
def schedule_order (s t : Schedule) : Prop :=
  s.schedule_group < t.schedule_group ∨ (s.schedule_group = t.schedule_group ∧
  (optStrLt s.in_force_start_date t.in_force_start_date = true ∨
    (s.in_force_start_date = t.in_force_start_date ∧
  (optStrLt s.season_start t.season_start = true ∨ (s.season_start = t.season_start ∧
  (strLt s.start t.start = true ∨ (s.start = t.start ∧ strLe s.«end» t.«end» = true)))))))

instance : DecidableRel schedule_order := fun s t => by
  unfold schedule_order; infer_instance

/-- `Market.list_schedules`. -/
def list_schedules (store : Store) (finid : String) : List Schedule :=
  List.insertionSort schedule_order
    (store.schedules.filter (fun s => s.fin_id == finid))

/-- `Market.generate_phases` (the lazily yielded phases, collected in
order into a list). -/
def generate_phases (store : Store) (m : MarketRow) (start «end» : StrOrDate) :
    Except Err (List Phase) := do
  let start ← validate_date_arg start
  let e ← validate_date_arg «end»
  let (start, e) ← validate_range_args start e
  let offset_start := start.toOrdinal - MAX_OFFSET_DAYS
  let all_schedules := list_schedules store m.fin_id
  let holidays :=
    holidays_between store m.fin_id (Date.fromOrdinal offset_start).isoformat e.isoformat
  run_dates store all_schedules holidays start.toOrdinal
    (List.range' offset_start (e.toOrdinal + 1 - offset_start))

/-- `Market.list_holidays` (list form). -/
def list_holidays (store : Store) (m : MarketRow) (start «end» : StrOrDate) :
    Except Err (List MarketHoliday) := do
  let s ← validate_date_arg start
  let e ← validate_date_arg «end»
  let (s, e) ← validate_range_args s e
  .ok (holidays_between store m.fin_id s.isoformat e.isoformat)

/-- `Market.get_by_finid`. -/
def get_by_finid (store : Store) (finid : String) (follow : Bool := true) :
    Except Err (Option MarketRow) := do
  let finid ← validate_finid_arg finid
  let found ← one_or_none (store.markets.filter (fun r => r.fin_id == finid))
  match found with
  | some f =>
    if f.replaced_by ≠ "" ∧ follow = true then
      one_or_none (store.markets.filter (fun r => r.fin_id == f.replaced_by))
    else .ok (some f)
  | none => .ok none

/-- `Market.get_by_mic`. -/
def get_by_mic (store : Store) (mic : String) (follow : Bool := true) :
    Except Err (Option MarketRow) := do
  let mic ← validate_str_arg mic
  let mapping ← one_or_none (store.mic_mappings.filter (fun r => r.mic == mic))
  match mapping with
  | some mapping => get_by_finid store mapping.fin_id follow
  | none => .ok none

/-- `Market.get`. -/
def Market.get (store : Store) (identifier : String) (follow : Bool := true) :
    Except Err (Option MarketRow) := do
  let identifier ← validate_str_arg identifier
  if identifier.data.contains '.' then
    get_by_finid store identifier follow
  else
    get_by_mic store identifier follow

/-! ## Concrete fixtures used by witnesses -/

def mkA : MarketRow := ⟨"A.X", "Alpha Exchange", "UTC", "AAAA", "B.X"⟩
def mkB : MarketRow := ⟨"B.X", "Beta Exchange", "UTC", "BBBB", "C.X"⟩
def mkS : MarketRow := ⟨"S.X", "Sigma Exchange", "UTC", "SSSS", "S.X"⟩

def lookupStore : Store :=
  { markets := [mkA, mkB, mkS]
    schedules := []
    holidays := []
    seasons := []
    phase_types := []
    mic_mappings := [⟨"AAAA", "A.X"⟩] }

/-- Like `lookupStore` but without the redirection target `B.X`. -/
def danglingStore : Store :=
  { markets := [mkA, mkS]
    schedules := []
    holidays := []
    seasons := []
    phase_types := []
    mic_mappings := [] }

def seasonalSched : Schedule :=
  { fin_id := "T.X", schedule_group := "Regular", timezone := "UTC",
    phase_type := "Primary Trading Session", phase_name := "Session",
    phase_memo := "", days := "Mon-Sun", start := "09:00:00",
    «end» := "17:00:00", offset_days := 0, duration := 28800,
    in_force_start_date := none, in_force_end_date := none,
    season_start := some "First day of December",
    season_end := some "Last day of February" }

def seasonStore : Store :=
  { markets := [], schedules := [seasonalSched], holidays := []
    seasons := [⟨"First day of December", 2024, "2024-12-01"⟩,
                ⟨"Last day of February", 2024, "2024-02-28"⟩]
    phase_types := [⟨"Primary Trading Session", "Open", "Yes"⟩]
    mic_mappings := [] }

/-- The weekdays the fallback loop visits, in visiting order. -/
def walkWeekdays (current_weekday : Nat) : Nat → Nat → List Nat
  | _, 0 => []
  | fw, fuel + 1 =>
    if fw = current_weekday then []
    else fw :: walkWeekdays current_weekday (prevWeekday fw) fuel

/-- Order on emitted phases: earlier local date, or same date and
start-time no later (the order `generate_phases` emits in). -/
def phaseOrd (p q : Phase) : Prop :=
  p.start.ordinal < q.start.ordinal ∨
    (p.start.ordinal = q.start.ordinal ∧ strLe p.start.time q.start.time = true)

/-- Strict order of zoned instants (same zone, fixed-offset model):
earlier local day, or same day and earlier local time. -/
def instantLt (x y : ZonedDateTime) : Prop :=
  x.tz = y.tz ∧
    (x.ordinal < y.ordinal ∨ (x.ordinal = y.ordinal ∧ strLt x.time y.time = true))

def mT : MarketRow := ⟨"T.X", "Test Exchange", "UTC", "TTTT", ""⟩

/-- The single phase `generate_phases` emits on 2024-01-15 (ordinal
738900) over `seasonStore`. -/
def witnessPhase : Phase :=
  { phase_type := "Primary Trading Session", phase_name := "Session",
    phase_memo := "", status := "Open", settlement := "Yes",
    start := ⟨738900, "09:00:00", "UTC"⟩, «end» := ⟨738900, "17:00:00", "UTC"⟩ }

/-- A schedule whose `days` pattern names Monday only. -/
def mondaySched : Schedule :=
  { seasonalSched with days := "Mon", season_start := none, season_end := none }

/-! ## Helper lemmas -/

theorem find?_map_retains (l : List (Char × Char)) (d : Char)
    (hl : ∀ p ∈ l, p.1 ≠ d ∧ p.2 ≠ d) (c : Char) :
    (match l.find? (fun p => p.1 = c) with
     | some p => p.2
     | none => c) = d ↔ c = d := by
  induction l with
  | nil => simp
  | cons a l ih =>
    rw [List.find?_cons]
    by_cases h : a.1 = c
    · have ha := hl a (by simp)
      subst h
      simp [ha.1, ha.2]
    · have := ih (fun p hp => hl p (List.mem_cons_of_mem a hp))
      simpa [h] using this

theorem charUpper_eq_dot_iff (c : Char) : charUpper c = '.' ↔ c = '.' := by
  unfold charUpper
  exact find?_map_retains asciiUpperMap '.' (by decide) c

theorem charUpper_idem (c : Char) : charUpper (charUpper c) = charUpper c := by
  rcases h : asciiUpperMap.find? (fun p => p.1 = c) with _ | p
  · have hcc : charUpper c = c := by unfold charUpper; rw [h]
    rw [hcc, hcc]
  · have hp : p ∈ asciiUpperMap := List.mem_of_find?_eq_some h
    have hc : charUpper c = p.2 := by unfold charUpper; rw [h]
    rw [hc]
    have hkeys : ∀ p ∈ asciiUpperMap, ∀ q ∈ asciiUpperMap, q.1 ≠ p.2 := by decide
    have : asciiUpperMap.find? (fun q => q.1 = p.2) = none := by
      rw [List.find?_eq_none]
      intro q hq
      simpa using hkeys p hp q hq
    unfold charUpper
    rw [this]

theorem strUpper_idem (s : String) : strUpper (strUpper s) = strUpper s := by
  unfold strUpper
  simp [List.map_map, Function.comp_def, charUpper_idem]

theorem strUpper_ne_empty {s : String} (h : s ≠ "") : strUpper s ≠ "" := by
  intro hc
  apply h
  have hd : s.data.map charUpper = [] := congrArg String.data hc
  have hnil : s.data = [] := List.map_eq_nil_iff.mp hd
  apply String.ext
  rw [hnil]

theorem strUpper_dot_mem (s : String) : '.' ∈ (strUpper s).data ↔ '.' ∈ s.data := by
  show '.' ∈ s.data.map charUpper ↔ '.' ∈ s.data
  simp only [List.mem_map]
  constructor
  · rintro ⟨c, hc, hcu⟩
    rwa [(charUpper_eq_dot_iff c).mp hcu] at hc
  · intro hm
    exact ⟨'.', hm, rfl⟩

/-! ## C6: `get_by_finid` redirection -/

/-- C6: `get_by_finid(finid, follow)` performs at most one redirection
hop: with `follow` and a located market carrying a non-empty
`replaced_by`, it returns the market whose `fin_id` equals that
`replaced_by` (whatever that market's own `replaced_by` says — no second
hop); a self-redirect yields the original market; with `follow = false`
no redirection occurs; and a `finid` matching no row gives an absent
result rather than an error. -/
theorem finid_single_hop (store : Store) (finid : String) (h : finid ≠ "") :
    (∀ f g, store.markets.filter (fun r => r.fin_id == finid) = [f] →
      f.replaced_by ≠ "" →
      store.markets.filter (fun r => r.fin_id == f.replaced_by) = [g] →
      get_by_finid store finid true = .ok (some g))
    ∧ (∀ f, store.markets.filter (fun r => r.fin_id == finid) = [f] →
      f.replaced_by = finid →
      get_by_finid store finid true = .ok (some f))
    ∧ (∀ f, store.markets.filter (fun r => r.fin_id == finid) = [f] →
      get_by_finid store finid false = .ok (some f))
    ∧ (∀ follow, store.markets.filter (fun r => r.fin_id == finid) = [] →
      get_by_finid store finid follow = .ok none) := by
  refine ⟨?_, ?_, ?_, ?_⟩
  · intro f g hf hrb hg
    simp [get_by_finid, validate_finid_arg, h, hf, one_or_none, hrb, hg,
      Bind.bind, Except.bind]
  · intro f hf hrb
    have hrb' : f.replaced_by ≠ "" := by rw [hrb]; exact h
    simp [get_by_finid, validate_finid_arg, h, hf, one_or_none, hrb', hrb,
      Bind.bind, Except.bind]
  · intro f hf
    simp [get_by_finid, validate_finid_arg, h, hf, one_or_none,
      Bind.bind, Except.bind]
  · intro follow hf
    simp [get_by_finid, validate_finid_arg, h, hf, one_or_none,
      Bind.bind, Except.bind]

theorem finid_single_hop_witness :
    ("A.X" : String) ≠ ""
    ∧ get_by_finid lookupStore "A.X" true = .ok (some mkB)
    ∧ get_by_finid lookupStore "S.X" true = .ok (some mkS)
    ∧ get_by_finid lookupStore "A.X" false = .ok (some mkA)
    ∧ get_by_finid lookupStore "Z.Z" true = .ok none := by
  refine ⟨by decide, ?_, ?_, ?_, ?_⟩
  · exact (finid_single_hop lookupStore "A.X" (by decide)).1 mkA mkB
      (by decide) (by decide) (by decide)
  · exact (finid_single_hop lookupStore "S.X" (by decide)).2.1 mkS
      (by decide) (by decide)
  · exact (finid_single_hop lookupStore "A.X" (by decide)).2.2.1 mkA (by decide)
  · exact (finid_single_hop lookupStore "Z.Z" (by decide)).2.2.2 true (by decide)

/-! ## C10: a dangling redirection target hides the located market -/

/-- C10: when `follow` holds and the located market's non-empty
`replaced_by` matches no market row, `get_by_finid` returns an absent
result instead of the market it had found. -/
theorem finid_dangling_redirect (store : Store) (finid : String) (f : MarketRow)
    (h : finid ≠ "")
    (hf : store.markets.filter (fun r => r.fin_id == finid) = [f])
    (hrb : f.replaced_by ≠ "")
    (hg : store.markets.filter (fun r => r.fin_id == f.replaced_by) = []) :
    get_by_finid store finid true = .ok none := by
  simp [get_by_finid, validate_finid_arg, h, hf, one_or_none, hrb, hg,
    Bind.bind, Except.bind]

theorem finid_dangling_redirect_witness :
    danglingStore.markets.filter (fun r => r.fin_id == "A.X") = [mkA]
    ∧ mkA.replaced_by ≠ ""
    ∧ get_by_finid danglingStore "A.X" true = .ok none :=
  ⟨by decide, by decide,
    finid_dangling_redirect danglingStore "A.X" mkA (by decide) (by decide)
      (by decide) (by decide)⟩

/-! ## C7: `Market.get` dispatch -/

/-- C7: `Market.get` dispatches on the presence of `'.'` in the
identifier — a dotted identifier goes through `get_by_finid`, a
non-dotted one through the MIC path, where the identifier is uppercased
before the `mic_mappings` lookup. -/
theorem market_get_dispatch (store : Store) (identifier : String) (follow : Bool)
    (h : identifier ≠ "") :
    ('.' ∈ identifier.data →
      Market.get store identifier follow = get_by_finid store (strUpper identifier) follow)
    ∧ ('.' ∉ identifier.data →
      Market.get store identifier follow =
        (do
          let mapping ← one_or_none
            (store.mic_mappings.filter (fun r => r.mic == strUpper identifier))
          match mapping with
          | some mapping => get_by_finid store mapping.fin_id follow
          | none => Except.ok none)) := by
  have hne := strUpper_ne_empty h
  constructor
  · intro hdot
    simp [Market.get, validate_str_arg, h, Bind.bind, Except.bind,
      strUpper_dot_mem, hdot]
  · intro hdot
    simp [Market.get, validate_str_arg, h, Bind.bind, Except.bind,
      strUpper_dot_mem, hdot, get_by_mic, hne, strUpper_idem]

theorem market_get_dispatch_witness :
    ('.' ∈ ("a.x" : String).data
      ∧ Market.get lookupStore "a.x" true = get_by_finid lookupStore (strUpper "a.x") true)
    ∧ ('.' ∉ ("aaaa" : String).data
      ∧ Market.get lookupStore "aaaa" true =
        (do
          let mapping ← one_or_none
            (lookupStore.mic_mappings.filter (fun r => r.mic == strUpper "aaaa"))
          match mapping with
          | some mapping => get_by_finid lookupStore mapping.fin_id true
          | none => Except.ok none)) :=
  ⟨⟨by decide, (market_get_dispatch lookupStore "a.x" true (by decide)).1 (by decide)⟩,
   ⟨by decide, (market_get_dispatch lookupStore "aaaa" true (by decide)).2 (by decide)⟩⟩

/-! ## Order facts about the string comparison -/

theorem charsLt_irrefl (l : List Char) : charsLt l l = false := by
  induction l with
  | nil => rfl
  | cons a as ih => simp [charsLt, lt_irrefl, ih]

theorem charsLt_nil_right (l : List Char) : charsLt l [] = false := by
  cases l <;> rfl

theorem charsLt_trans {a b c : List Char} (h1 : charsLt a b = true)
    (h2 : charsLt b c = true) : charsLt a c = true := by
  induction a generalizing b c with
  | nil =>
    cases c with
    | nil => rw [charsLt_nil_right] at h2; exact absurd h2 (by simp)
    | cons z cs => rfl
  | cons x as ih =>
    cases b with
    | nil => rw [charsLt_nil_right] at h1; exact absurd h1 (by simp)
    | cons y bs =>
      cases c with
      | nil => rw [charsLt_nil_right] at h2; exact absurd h2 (by simp)
      | cons z cs =>
        simp only [charsLt] at h1 h2 ⊢
        rcases lt_trichotomy x y with hxy | hxy | hxy
        · rcases lt_trichotomy y z with hyz | hyz | hyz
          · simp [lt_trans hxy hyz]
          · subst hyz; simp [hxy]
          · simp [hyz, not_lt.mpr (le_of_lt hyz), lt_asymm hyz] at h2
        · subst hxy
          rcases lt_trichotomy x z with hxz | hxz | hxz
          · simp [hxz]
          · subst hxz
            simp [lt_irrefl] at h1 h2 ⊢
            exact ih h1 h2
          · simp [lt_asymm hxz, hxz] at h2
        · simp [lt_asymm hxy, hxy] at h1

theorem charsLt_trichotomy (a b : List Char) :
    charsLt a b = true ∨ a = b ∨ charsLt b a = true := by
  induction a generalizing b with
  | nil =>
    cases b with
    | nil => right; left; rfl
    | cons y bs => left; rfl
  | cons x as ih =>
    cases b with
    | nil => right; right; rfl
    | cons y bs =>
      rcases lt_trichotomy x y with hxy | hxy | hxy
      · left; simp [charsLt, hxy]
      · subst hxy
        rcases ih bs with h | h | h
        · left; simp [charsLt, lt_irrefl, h]
        · right; left; rw [h]
        · right; right; simp [charsLt, lt_irrefl, h]
      · right; right; simp [charsLt, hxy]

theorem charsLt_asymm {a b : List Char} (h : charsLt a b = true) :
    charsLt b a = false := by
  by_contra hc
  have hba : charsLt b a = true := by
    cases hh : charsLt b a
    · exact absurd hh hc
    · rfl
  have := charsLt_trans h hba
  rw [charsLt_irrefl] at this
  exact absurd this (by simp)

/-- With `end < start` (wrap-around), the in-range test
`start <= d <= end` can never hold. -/
theorem strle_sandwich_false {sd d ed : String} (hw : strLt ed sd = true) :
    (strLe sd d && strLe d ed) = false := by
  cases h1 : strLe sd d
  · simp
  · cases h2 : strLe d ed
    · simp
    · exfalso
      have h1' : charsLt d.data sd.data = false := by
        simpa [strLe] using h1
      have h2' : charsLt ed.data d.data = false := by
        simpa [strLe] using h2
      have hw' : charsLt ed.data sd.data = true := hw
      rcases charsLt_trichotomy d.data sd.data with h | h | h
      · rw [h] at h1'; exact absurd h1' (by simp)
      · rw [← h] at hw'
        rw [hw'] at h2'
        exact absurd h2' (by simp)
      · have := charsLt_trans hw' h
        rw [this] at h2'
        exact absurd h2' (by simp)

/-! ## C2: the season filter -/

/-- C2: for any date and schedule with season bounds the season filter
resolves both season names with the date's year and keeps the schedule
iff `start <= d <= end` when `end >= start`, or `d <= end` or
`d >= start` in the wrap-around case; a schedule without a season is kept
unconditionally; with season `Dec 1`–`Feb 28`, `Jan 15` is selected and
`Apr 1` is not. -/
theorem season_filter_selects (store : Store) (d : Date) (s : Schedule) :
    (s.has_season = false → season_yields store d s = .ok [s])
    ∧ (∀ ss se sd ed, s.season_start = some ss → s.season_end = some se →
      SeasonDefinition.get store (some ss) d.year = .ok sd →
      SeasonDefinition.get store (some se) d.year = .ok ed →
      season_yields store d s = .ok (
        if strLe sd ed then
          if strLe sd d.isoformat && strLe d.isoformat ed then [s] else []
        else
          if strLe d.isoformat ed || strLe sd d.isoformat then [s] else []))
    ∧ (season_yields seasonStore ⟨2024, 1, 15⟩ seasonalSched = .ok [seasonalSched]
      ∧ season_yields seasonStore ⟨2024, 4, 1⟩ seasonalSched = .ok []) := by
  refine ⟨?_, ?_, by decide, by decide⟩
  · intro hns
    simp [season_yields, hns]
  · intro ss se sd ed hss hse hsd hed
    have hhs : s.has_season = true := by simp [Schedule.has_season, hss]
    simp only [season_yields, hhs, Bool.not_true, Bool.false_eq_true, if_false,
      hss, hse, hsd, hed, Bind.bind, Except.bind]
    cases hw : strLt ed sd with
    | true =>
      have hle : strLe sd ed = false := by
        simpa [strLe, strLt] using hw
      have hnr := strle_sandwich_false (d := d.isoformat) hw
      simp [hw, hle, hnr]
    | false =>
      have hle : strLe sd ed = true := by
        simpa [strLe, strLt] using hw
      simp [hw, hle]

theorem season_filter_selects_witness :
    seasonalSched.season_start = some "First day of December"
    ∧ season_yields seasonStore ⟨2024, 7, 1⟩ seasonalSched = .ok
        (if strLe "2024-12-01" "2024-02-28" then
          if strLe "2024-12-01" (Date.isoformat ⟨2024, 7, 1⟩)
              && strLe (Date.isoformat ⟨2024, 7, 1⟩) "2024-02-28" then [seasonalSched] else []
        else
          if strLe (Date.isoformat ⟨2024, 7, 1⟩) "2024-02-28"
              || strLe "2024-12-01" (Date.isoformat ⟨2024, 7, 1⟩) then [seasonalSched] else []) :=
  ⟨rfl,
    (season_filter_selects seasonStore ⟨2024, 7, 1⟩ seasonalSched).2.1
      "First day of December" "Last day of February" "2024-12-01" "2024-02-28"
      rfl rfl (by decide) (by decide)⟩

/-! ## C9: the season filter yields each schedule at most once -/

/-- C9: one invocation of the season filter yields a schedule at most
once — its wrap-around and in-range conditionals never both fire, since
`start_date <= date <= end_date` is unsatisfiable when
`end_date < start_date`. -/
theorem season_filter_yields_at_most_once (store : Store) (d : Date) (s : Schedule)
    (l : List Schedule) (h : season_yields store d s = .ok l) :
    l = [] ∨ l = [s] := by
  by_cases hhs : s.has_season = true
  · rcases hs1 : SeasonDefinition.get store s.season_start d.year with e1 | sd
    · rw [season_yields, if_neg (by simp [hhs])] at h
      simp [hs1, Bind.bind, Except.bind] at h
    · rcases hs2 : SeasonDefinition.get store s.season_end d.year with e2 | ed
      · rw [season_yields, if_neg (by simp [hhs])] at h
        simp [hs1, hs2, Bind.bind, Except.bind] at h
      · rw [season_yields, if_neg (by simp [hhs])] at h
        simp only [hs1, hs2, Bind.bind, Except.bind, Except.ok.injEq] at h
        cases hw : strLt ed sd with
        | true =>
          have hnr := strle_sandwich_false (d := d.isoformat) hw
          rw [hw] at h
          simp only [hnr, if_true, if_false, Bool.false_eq_true, List.append_nil] at h
          by_cases hc : (strLe d.isoformat ed || strLe sd d.isoformat) = true
          · right; rw [← h]; simp [hc]
          · left; rw [← h]; simp [hc]
        | false =>
          rw [hw] at h
          simp only [Bool.false_eq_true, if_false, List.nil_append] at h
          by_cases hc : (strLe sd d.isoformat && strLe d.isoformat ed) = true
          · right; rw [← h]; simp [hc]
          · left; rw [← h]; simp [hc]
  · rw [season_yields, if_pos (by simp [hhs])] at h
    right
    exact (Except.ok.injEq _ _ ).mp h |>.symm ▸ rfl

theorem season_filter_yields_at_most_once_witness :
    [seasonalSched] = [] ∨ [seasonalSched] = [seasonalSched] :=
  season_filter_yields_at_most_once seasonStore ⟨2024, 1, 15⟩ seasonalSched
    [seasonalSched] (by decide)


theorem walkWeekdays_self (t m : Nat) : walkWeekdays t t m = [] := by
  cases m <;> simp [walkWeekdays]

theorem fallbackWhile_eq_walk (before : List Schedule) (t : Nat) :
    ∀ fuel fw, fallbackWhile before t fw fuel =
      (((walkWeekdays t fw fuel).map
        (fun w => before.filter (fun s => weekdays_match s.days w))).find?
          (fun l => !l.isEmpty)).getD [] := by
  intro fuel
  induction fuel with
  | zero => intro fw; rfl
  | succ fuel ih =>
    intro fw
    by_cases hfw : fw = t
    · simp [fallbackWhile, walkWeekdays, hfw]
    · simp only [fallbackWhile, walkWeekdays, hfw, if_false, List.map_cons,
        List.find?_cons]
      cases he : (before.filter (fun s => weekdays_match s.days fw)).isEmpty
      · simp [he]
      · simp [he, ih]

/-! ## C1: the holiday weekday fallback -/

/-- C1: when stage 5 is empty and fallback is allowed, the fallback loop
starts at `(today - 1) mod 7`, walks backward modulo 7 over the
post-stage-4 set, adopts the first weekday whose filtered set is
non-empty, never re-tests today's weekday, terminates within the 7-fuel
bound (any fuel ≥ 6 gives the same value), and yields the empty set when
every other weekday yields nothing. -/
theorem fallback_walks_earlier_weekdays (before_weekdays : List Schedule)
    (t : Nat) (ht : t < 7) :
    (fallbackWhile before_weekdays t (prevWeekday t) 7 =
      ((([(t + 6) % 7, (t + 5) % 7, (t + 4) % 7, (t + 3) % 7, (t + 2) % 7,
          (t + 1) % 7]).map
        (fun w => before_weekdays.filter (fun s => weekdays_match s.days w))).find?
          (fun l => !l.isEmpty)).getD [])
    ∧ ((t + 6) % 7 ≠ t ∧ (t + 5) % 7 ≠ t ∧ (t + 4) % 7 ≠ t ∧ (t + 3) % 7 ≠ t
        ∧ (t + 2) % 7 ≠ t ∧ (t + 1) % 7 ≠ t)
    ∧ (∀ fuel, 6 ≤ fuel →
        fallbackWhile before_weekdays t (prevWeekday t) fuel =
        fallbackWhile before_weekdays t (prevWeekday t) 7)
    ∧ ((∀ w, w ≠ t →
          before_weekdays.filter (fun s => weekdays_match s.days w) = []) →
        fallbackWhile before_weekdays t (prevWeekday t) 7 = []) := by
  have hwalk : ∀ fuel, 6 ≤ fuel →
      walkWeekdays t (prevWeekday t) fuel =
      [(t + 6) % 7, (t + 5) % 7, (t + 4) % 7, (t + 3) % 7, (t + 2) % 7,
        (t + 1) % 7] := by
    intro fuel hfuel
    obtain ⟨m, rfl⟩ : ∃ m, fuel = m + 6 := ⟨fuel - 6, by omega⟩
    interval_cases t <;> simp [walkWeekdays, prevWeekday, walkWeekdays_self]
  refine ⟨?_, by omega, ?_, ?_⟩
  · rw [fallbackWhile_eq_walk, hwalk 7 (by omega)]
  · intro fuel hfuel
    rw [fallbackWhile_eq_walk, fallbackWhile_eq_walk, hwalk fuel hfuel,
      hwalk 7 (by omega)]
  · intro hall
    rw [fallbackWhile_eq_walk, hwalk 7 (by omega)]
    have h1 : (t + 6) % 7 ≠ t := by omega
    have h2 : (t + 5) % 7 ≠ t := by omega
    have h3 : (t + 4) % 7 ≠ t := by omega
    have h4 : (t + 3) % 7 ≠ t := by omega
    have h5 : (t + 2) % 7 ≠ t := by omega
    have h6 : (t + 1) % 7 ≠ t := by omega
    simp [List.find?, hall _ h1, hall _ h2, hall _ h3, hall _ h4,
      hall _ h5, hall _ h6]


theorem fallback_walks_earlier_weekdays_witness :
    (fallbackWhile [mondaySched] 3 (prevWeekday 3) 7 =
      ((([(3 + 6) % 7, (3 + 5) % 7, (3 + 4) % 7, (3 + 3) % 7, (3 + 2) % 7,
          (3 + 1) % 7]).map
        (fun w => [mondaySched].filter (fun s => weekdays_match s.days w))).find?
          (fun l => !l.isEmpty)).getD [])
    ∧ fallbackWhile [mondaySched] 3 (prevWeekday 3) 7 = [mondaySched] :=
  ⟨(fallback_walks_earlier_weekdays [mondaySched] 3 (by decide)).1, by decide⟩

/-! ### Order facts for the per-date sort -/

theorem strLe_refl (a : String) : strLe a a = true := by
  simp [strLe, charsLt_irrefl]

theorem strLe_of_strLt {a b : String} (h : strLt a b = true) : strLe a b = true := by
  simp [strLe, charsLt_asymm h]

theorem strLt_trans {a b c : String} (h1 : strLt a b = true)
    (h2 : strLt b c = true) : strLt a c = true :=
  charsLt_trans h1 h2

theorem str_trichotomy (a b : String) :
    strLt a b = true ∨ a = b ∨ strLt b a = true := by
  rcases charsLt_trichotomy a.data b.data with h | h | h
  · exact Or.inl h
  · exact Or.inr (Or.inl (String.ext h))
  · exact Or.inr (Or.inr h)

instance : IsTotal Schedule schedLe where
  total s t := by
    rcases str_trichotomy s.start t.start with h | h | h
    · exact Or.inl (Or.inl h)
    · rcases Nat.le_total s.duration t.duration with hd | hd
      · exact Or.inl (Or.inr ⟨h, hd⟩)
      · exact Or.inr (Or.inr ⟨h.symm, hd⟩)
    · exact Or.inr (Or.inl h)

instance : IsTrans Schedule schedLe where
  trans s t u h1 h2 := by
    rcases h1 with h1 | ⟨h1e, h1d⟩
    · rcases h2 with h2 | ⟨h2e, h2d⟩
      · exact Or.inl (strLt_trans h1 h2)
      · exact Or.inl (h2e ▸ h1)
    · rcases h2 with h2 | ⟨h2e, h2d⟩
      · exact Or.inl (h1e ▸ h2)
      · exact Or.inr ⟨h1e.trans h2e, le_trans h1d h2d⟩

theorem strLe_of_schedLe {s t : Schedule} (h : schedLe s t) :
    strLe s.start t.start = true := by
  rcases h with h | ⟨he, _⟩
  · exact strLe_of_strLt h
  · rw [he]; exact strLe_refl _

/-! ### Facts about `materialize_phases` -/

theorem materialize_phases_mem {store : Store} {wstart current : Nat}
    {ss : List Schedule} {l : List Phase}
    (h : materialize_phases store wstart current ss = .ok l) :
    ∀ p ∈ l, wstart ≤ p.«end».ordinal ∧ p.start.ordinal = current ∧
      ∃ s ∈ ss, ∃ pt, phase_types_lookup store s.phase_type = some pt ∧
        p = mkPhase pt s current (current + s.offset_days) := by
  induction ss generalizing l with
  | nil =>
    simp only [materialize_phases, Except.ok.injEq] at h
    subst h
    intro p hp
    exact absurd hp (List.not_mem_nil p)
  | cons s rest ih =>
    rw [materialize_phases] at h
    by_cases hg : wstart ≤ current + s.offset_days
    · rw [if_pos hg] at h
      rcases hl : phase_types_lookup store s.phase_type with _ | pt
      · rw [hl] at h; exact absurd h (by simp)
      · rw [hl] at h
        rcases hm : materialize_phases store wstart current rest with e | tail
        · rw [hm] at h; exact absurd h (by simp [Bind.bind, Except.bind])
        · rw [hm] at h
          simp only [Bind.bind, Except.bind, Except.ok.injEq] at h
          subst h
          intro p hp
          rcases List.mem_cons.mp hp with hp | hp
          · subst hp
            exact ⟨hg, rfl, s, List.mem_cons_self s rest, pt, hl, rfl⟩
          · obtain ⟨h1, h2, s', hs', pt', hl', hp'⟩ := ih hm p hp
            exact ⟨h1, h2, s', List.mem_cons_of_mem s hs', pt', hl', hp'⟩
    · rw [if_neg hg] at h
      intro p hp
      obtain ⟨h1, h2, s', hs', pt', hl', hp'⟩ := ih h p hp
      exact ⟨h1, h2, s', List.mem_cons_of_mem s hs', pt', hl', hp'⟩

theorem materialize_phases_complete {store : Store} {wstart current : Nat}
    {ss : List Schedule} {l : List Phase}
    (h : materialize_phases store wstart current ss = .ok l) :
    ∀ s ∈ ss, wstart ≤ current + s.offset_days →
      ∃ pt, phase_types_lookup store s.phase_type = some pt ∧
        mkPhase pt s current (current + s.offset_days) ∈ l := by
  induction ss generalizing l with
  | nil => intro s hs; exact absurd hs (List.not_mem_nil s)
  | cons s rest ih =>
    rw [materialize_phases] at h
    intro s' hs' hg'
    by_cases hg : wstart ≤ current + s.offset_days
    · rw [if_pos hg] at h
      rcases hl : phase_types_lookup store s.phase_type with _ | pt
      · rw [hl] at h; exact absurd h (by simp)
      · rw [hl] at h
        rcases hm : materialize_phases store wstart current rest with e | tail
        · rw [hm] at h; exact absurd h (by simp [Bind.bind, Except.bind])
        · rw [hm] at h
          simp only [Bind.bind, Except.bind, Except.ok.injEq] at h
          subst h
          rcases List.mem_cons.mp hs' with hh | hh
          · subst hh
            exact ⟨pt, hl, List.mem_cons_self _ _⟩
          · obtain ⟨pt', hl', hm'⟩ := ih hm s' hh hg'
            exact ⟨pt', hl', List.mem_cons_of_mem _ hm'⟩
    · rw [if_neg hg] at h
      rcases List.mem_cons.mp hs' with hh | hh
      · subst hh; exact absurd hg' hg
      · exact ih h s' hh hg'

theorem materialize_phases_error {store : Store} {wstart current : Nat}
    {ss : List Schedule} {e : Err}
    (h : materialize_phases store wstart current ss = .error e) :
    e = .dataMissing := by
  induction ss generalizing e with
  | nil => simp [materialize_phases] at h
  | cons s rest ih =>
    rw [materialize_phases] at h
    by_cases hg : wstart ≤ current + s.offset_days
    · rw [if_pos hg] at h
      rcases hl : phase_types_lookup store s.phase_type with _ | pt
      · rw [hl] at h
        simp only [Except.error.injEq] at h
        exact h.symm
      · rw [hl] at h
        rcases hm : materialize_phases store wstart current rest with e' | tail
        · rw [hm] at h
          simp only [Bind.bind, Except.bind, Except.error.injEq] at h
          exact h ▸ ih hm
        · rw [hm] at h
          simp [Bind.bind, Except.bind] at h
    · rw [if_neg hg] at h
      exact ih h


/-! ### Facts about the filter cascade -/

theorem seasonGet_error {store : Store} {n : Option String} {y : Nat} {e : Err}
    (h : SeasonDefinition.get store n y = .error e) : e = .dataMissing := by
  rcases n with _ | n
  · rw [SeasonDefinition.get] at h
    simp only [Except.error.injEq] at h
    exact h.symm
  · rw [SeasonDefinition.get] at h
    rcases hf : store.seasons.find? (fun r => r.season == n && r.year == y) with _ | r
    · rw [hf] at h
      simp only [Except.error.injEq] at h
      exact h.symm
    · rw [hf] at h
      simp at h

theorem season_yields_mem {store : Store} {d : Date} {s : Schedule}
    {l : List Schedule} (h : season_yields store d s = .ok l) :
    ∀ x ∈ l, x = s := by
  rw [season_yields] at h
  by_cases hhs : (!s.has_season) = true
  · rw [if_pos hhs] at h
    simp only [Except.ok.injEq] at h
    subst h
    intro x hx
    simpa using hx
  · rw [if_neg hhs] at h
    rcases hs1 : SeasonDefinition.get store s.season_start d.year with e1 | sd
    · rw [hs1] at h; simp [Bind.bind, Except.bind] at h
    · rw [hs1] at h
      rcases hs2 : SeasonDefinition.get store s.season_end d.year with e2 | ed
      · rw [hs2] at h; simp [Bind.bind, Except.bind] at h
      · rw [hs2] at h
        simp only [Bind.bind, Except.bind, Except.ok.injEq] at h
        subst h
        intro x hx
        rcases List.mem_append.mp hx with hx | hx
        · split at hx
          · split at hx
            · simpa using hx
            · simp at hx
          · simp at hx
        · split at hx
          · simpa using hx
          · simp at hx

theorem season_yields_error {store : Store} {d : Date} {s : Schedule}
    {e : Err} (h : season_yields store d s = .error e) : e = .dataMissing := by
  rw [season_yields] at h
  by_cases hhs : (!s.has_season) = true
  · rw [if_pos hhs] at h; simp at h
  · rw [if_neg hhs] at h
    rcases hs1 : SeasonDefinition.get store s.season_start d.year with e1 | sd
    · rw [hs1] at h
      simp only [Bind.bind, Except.bind, Except.error.injEq] at h
      rw [← h]; exact seasonGet_error hs1
    · rw [hs1] at h
      rcases hs2 : SeasonDefinition.get store s.season_end d.year with e2 | ed
      · rw [hs2] at h
        simp only [Bind.bind, Except.bind, Except.error.injEq] at h
        rw [← h]; exact seasonGet_error hs2
      · rw [hs2] at h
        simp [Bind.bind, Except.bind] at h

theorem filter_season_mem {store : Store} {d : Date} {ss out : List Schedule}
    (h : filter_season store d ss = .ok out) : ∀ x ∈ out, x ∈ ss := by
  induction ss generalizing out with
  | nil =>
    simp only [filter_season, Except.ok.injEq] at h
    subst h
    simp
  | cons c rest ih =>
    rw [filter_season] at h
    rcases h1 : season_yields store d c with e1 | l
    · rw [h1] at h; simp [Bind.bind, Except.bind] at h
    · rw [h1] at h
      rcases h2 : filter_season store d rest with e2 | r
      · rw [h2] at h; simp [Bind.bind, Except.bind] at h
      · rw [h2] at h
        simp only [Bind.bind, Except.bind, Except.ok.injEq] at h
        subst h
        intro x hx
        rcases List.mem_append.mp hx with hx | hx
        · exact (season_yields_mem h1 x hx) ▸ List.mem_cons_self c rest
        · exact List.mem_cons_of_mem c (ih h2 x hx)

theorem filter_season_error {store : Store} {d : Date} {ss : List Schedule}
    {e : Err} (h : filter_season store d ss = .error e) : e = .dataMissing := by
  induction ss generalizing e with
  | nil => simp [filter_season] at h
  | cons c rest ih =>
    rw [filter_season] at h
    rcases h1 : season_yields store d c with e1 | l
    · rw [h1] at h
      simp only [Bind.bind, Except.bind, Except.error.injEq] at h
      rw [← h]; exact season_yields_error h1
    · rw [h1] at h
      rcases h2 : filter_season store d rest with e2 | r
      · rw [h2] at h
        simp only [Bind.bind, Except.bind, Except.error.injEq] at h
        rw [← h]; exact ih h2
      · rw [h2] at h; simp [Bind.bind, Except.bind] at h

theorem fallbackWhile_subset (before : List Schedule) (t : Nat) :
    ∀ fuel fw, ∀ x ∈ fallbackWhile before t fw fuel, x ∈ before := by
  intro fuel
  induction fuel with
  | zero => intro fw x hx; simp [fallbackWhile] at hx
  | succ fuel ih =>
    intro fw x hx
    simp only [fallbackWhile] at hx
    by_cases hfw : fw = t
    · rw [if_pos hfw] at hx; simp at hx
    · rw [if_neg hfw] at hx
      by_cases he : (before.filter (fun s => weekdays_match s.days fw)).isEmpty = true
      · rw [if_pos he] at hx
        exact ih _ x hx
      · rw [if_neg he] at hx
        exact List.mem_of_mem_filter hx

/-! ### Facts about the per-date selection -/

theorem found_schedules_sorted {store : Store} {all : List Schedule}
    {holidays : List MarketHoliday} {current : Nat} {fs : List Schedule}
    (h : found_schedules_for_date store all holidays current = .ok fs) :
    fs.Pairwise schedLe := by
  simp only [found_schedules_for_date, Bind.bind, Except.bind] at h
  rcases hfs : filter_season store (Date.fromOrdinal current)
      (filter_inforce (Date.fromOrdinal current).isoformat
        (filter_schedule_group
          (pick_schedule_group store holidays
            (Date.fromOrdinal current).isoformat).1 all)) with e | before
  · rw [hfs] at h
    exact absurd h (by simp)
  · rw [hfs] at h
    simp only [Except.ok.injEq] at h
    exact h ▸ List.sorted_insertionSort schedLe _

theorem found_schedules_subset {store : Store} {all : List Schedule}
    {holidays : List MarketHoliday} {current : Nat} {fs : List Schedule}
    (h : found_schedules_for_date store all holidays current = .ok fs) :
    ∀ x ∈ fs, x ∈ all := by
  simp only [found_schedules_for_date, Bind.bind, Except.bind] at h
  rcases hfs : filter_season store (Date.fromOrdinal current)
      (filter_inforce (Date.fromOrdinal current).isoformat
        (filter_schedule_group
          (pick_schedule_group store holidays
            (Date.fromOrdinal current).isoformat).1 all)) with e | before
  · rw [hfs] at h
    exact absurd h (by simp)
  · rw [hfs] at h
    simp only [Except.ok.injEq] at h
    intro x hx
    rw [← h] at hx
    have hx' := (List.perm_insertionSort schedLe _).mem_iff.mp hx
    have hxb : x ∈ before := by
      split at hx'
      · exact fallbackWhile_subset before _ 7 _ x hx'
      · exact List.mem_of_mem_filter hx'
    have hxi := filter_season_mem hfs x hxb
    exact List.mem_of_mem_filter (List.mem_of_mem_filter hxi)

theorem found_schedules_error {store : Store} {all : List Schedule}
    {holidays : List MarketHoliday} {current : Nat} {e : Err}
    (h : found_schedules_for_date store all holidays current = .error e) :
    e = .dataMissing := by
  simp only [found_schedules_for_date, Bind.bind, Except.bind] at h
  rcases hfs : filter_season store (Date.fromOrdinal current)
      (filter_inforce (Date.fromOrdinal current).isoformat
        (filter_schedule_group
          (pick_schedule_group store holidays
            (Date.fromOrdinal current).isoformat).1 all)) with e' | before
  · rw [hfs] at h
    simp only [Except.error.injEq] at h
    rw [← h]
    exact filter_season_error hfs
  · rw [hfs] at h
    exact absurd h (by simp)

theorem phases_for_date_inv {store : Store} {all : List Schedule}
    {holidays : List MarketHoliday} {wstart current : Nat} {sub : List Phase}
    (h : phases_for_date store all holidays wstart current = .ok sub) :
    ∃ fs, found_schedules_for_date store all holidays current = .ok fs ∧
      materialize_phases store wstart current fs = .ok sub := by
  rw [phases_for_date] at h
  rcases hf : found_schedules_for_date store all holidays current with e | fs
  · rw [hf] at h
    simp [Bind.bind, Except.bind] at h
  · rw [hf] at h
    simp only [Bind.bind, Except.bind] at h
    exact ⟨fs, rfl, h⟩

theorem phases_for_date_error {store : Store} {all : List Schedule}
    {holidays : List MarketHoliday} {wstart current : Nat} {e : Err}
    (h : phases_for_date store all holidays wstart current = .error e) :
    e = .dataMissing := by
  rw [phases_for_date] at h
  rcases hf : found_schedules_for_date store all holidays current with e' | fs
  · rw [hf] at h
    simp only [Bind.bind, Except.bind, Except.error.injEq] at h
    rw [← h]
    exact found_schedules_error hf
  · rw [hf] at h
    simp only [Bind.bind, Except.bind] at h
    exact materialize_phases_error h

theorem materialize_phases_pairwise {store : Store} {wstart current : Nat}
    {ss : List Schedule} {l : List Phase}
    (h : materialize_phases store wstart current ss = .ok l)
    (hss : ss.Pairwise schedLe) :
    l.Pairwise (fun p q => strLe p.start.time q.start.time = true) := by
  induction ss generalizing l with
  | nil =>
    simp only [materialize_phases, Except.ok.injEq] at h
    subst h
    simp
  | cons s rest ih =>
    rcases List.pairwise_cons.mp hss with ⟨hall, hrest⟩
    rw [materialize_phases] at h
    by_cases hg : wstart ≤ current + s.offset_days
    · rw [if_pos hg] at h
      rcases hl : phase_types_lookup store s.phase_type with _ | pt
      · rw [hl] at h
        exact absurd h (by simp)
      · rw [hl] at h
        rcases hm : materialize_phases store wstart current rest with e | tail
        · rw [hm] at h
          exact absurd h (by simp [Bind.bind, Except.bind])
        · rw [hm] at h
          simp only [Bind.bind, Except.bind, Except.ok.injEq] at h
          subst h
          refine List.pairwise_cons.mpr ⟨?_, ih hm hrest⟩
          intro q hq
          obtain ⟨_, _, s', hs', pt', _, hq'⟩ := materialize_phases_mem hm q hq
          have : q.start.time = s'.start := by rw [hq']; rfl
          rw [this]
          exact strLe_of_schedLe (hall s' hs')
    · rw [if_neg hg] at h
      exact ih h hrest

theorem run_dates_mem {store : Store} {all : List Schedule}
    {holidays : List MarketHoliday} {wstart : Nat} {ds : List Nat} {l : List Phase}
    (h : run_dates store all holidays wstart ds = .ok l) :
    ∀ p ∈ l, ∃ d ∈ ds, ∃ sub,
      phases_for_date store all holidays wstart d = .ok sub ∧ p ∈ sub := by
  induction ds generalizing l with
  | nil =>
    simp only [run_dates, Except.ok.injEq] at h
    subst h
    simp
  | cons d rest ih =>
    rw [run_dates] at h
    rcases h1 : phases_for_date store all holidays wstart d with e | ph
    · rw [h1] at h
      exact absurd h (by simp [Bind.bind, Except.bind])
    · rw [h1] at h
      rcases h2 : run_dates store all holidays wstart rest with e | r
      · rw [h2] at h
        exact absurd h (by simp [Bind.bind, Except.bind])
      · rw [h2] at h
        simp only [Bind.bind, Except.bind, Except.ok.injEq] at h
        subst h
        intro p hp
        rcases List.mem_append.mp hp with hp | hp
        · exact ⟨d, List.mem_cons_self _ _, ph, h1, hp⟩
        · obtain ⟨d', hd', sub, hsub, hp'⟩ := ih h2 p hp
          exact ⟨d', List.mem_cons_of_mem _ hd', sub, hsub, hp'⟩

theorem run_dates_complete {store : Store} {all : List Schedule}
    {holidays : List MarketHoliday} {wstart : Nat} {ds : List Nat} {l : List Phase}
    (h : run_dates store all holidays wstart ds = .ok l) :
    ∀ d ∈ ds, ∃ sub,
      phases_for_date store all holidays wstart d = .ok sub ∧
        ∀ p ∈ sub, p ∈ l := by
  induction ds generalizing l with
  | nil => simp
  | cons d rest ih =>
    rw [run_dates] at h
    rcases h1 : phases_for_date store all holidays wstart d with e | ph
    · rw [h1] at h
      exact absurd h (by simp [Bind.bind, Except.bind])
    · rw [h1] at h
      rcases h2 : run_dates store all holidays wstart rest with e | r
      · rw [h2] at h
        exact absurd h (by simp [Bind.bind, Except.bind])
      · rw [h2] at h
        simp only [Bind.bind, Except.bind, Except.ok.injEq] at h
        subst h
        intro d' hd'
        rcases List.mem_cons.mp hd' with hh | hh
        · subst hh
          exact ⟨ph, h1, fun p hp => List.mem_append.mpr (Or.inl hp)⟩
        · obtain ⟨sub, hsub, hin⟩ := ih h2 d' hh
          exact ⟨sub, hsub, fun p hp => List.mem_append.mpr (Or.inr (hin p hp))⟩

theorem run_dates_error {store : Store} {all : List Schedule}
    {holidays : List MarketHoliday} {wstart : Nat} {ds : List Nat} {e : Err}
    (h : run_dates store all holidays wstart ds = .error e) :
    e = .dataMissing := by
  induction ds generalizing e with
  | nil => simp [run_dates] at h
  | cons d rest ih =>
    rw [run_dates] at h
    rcases h1 : phases_for_date store all holidays wstart d with e' | ph
    · rw [h1] at h
      simp only [Bind.bind, Except.bind, Except.error.injEq] at h
      rw [← h]
      exact phases_for_date_error h1
    · rw [h1] at h
      rcases h2 : run_dates store all holidays wstart rest with e' | r
      · rw [h2] at h
        simp only [Bind.bind, Except.bind, Except.error.injEq] at h
        rw [← h]
        exact ih h2
      · rw [h2] at h
        simp [Bind.bind, Except.bind] at h

theorem run_dates_pairwise {store : Store} {all : List Schedule}
    {holidays : List MarketHoliday} {wstart : Nat} {ds : List Nat} {l : List Phase}
    (h : run_dates store all holidays wstart ds = .ok l)
    (hds : ds.Pairwise (· < ·)) :
    l.Pairwise phaseOrd := by
  induction ds generalizing l with
  | nil =>
    simp only [run_dates, Except.ok.injEq] at h
    subst h
    simp
  | cons d rest ih =>
    rcases List.pairwise_cons.mp hds with ⟨hall, hrest⟩
    rw [run_dates] at h
    rcases h1 : phases_for_date store all holidays wstart d with e | ph
    · rw [h1] at h
      exact absurd h (by simp [Bind.bind, Except.bind])
    · rw [h1] at h
      rcases h2 : run_dates store all holidays wstart rest with e | r
      · rw [h2] at h
        exact absurd h (by simp [Bind.bind, Except.bind])
      · rw [h2] at h
        simp only [Bind.bind, Except.bind, Except.ok.injEq] at h
        subst h
        obtain ⟨fs, hfs, hmat⟩ := phases_for_date_inv h1
        refine List.pairwise_append.mpr ⟨?_, ih h2 hrest, ?_⟩
        · have hsorted := materialize_phases_pairwise hmat (found_schedules_sorted hfs)
          refine hsorted.imp_of_mem ?_
          intro p q hp hq hle
          have hpo := (materialize_phases_mem hmat p hp).2.1
          have hqo := (materialize_phases_mem hmat q hq).2.1
          exact Or.inr ⟨hpo.trans hqo.symm, hle⟩
        · intro p hp q hq
          have hpo := (materialize_phases_mem hmat p hp).2.1
          obtain ⟨d', hd', sub, hsub, hq'⟩ := run_dates_mem h2 q hq
          obtain ⟨fs', hfs', hmat'⟩ := phases_for_date_inv hsub
          have hqo := (materialize_phases_mem hmat' q hq').2.1
          exact Or.inl (by rw [hpo, hqo]; exact hall d' hd')

theorem list_schedules_subset {store : Store} {finid : String} :
    ∀ x ∈ list_schedules store finid, x ∈ store.schedules := by
  intro x hx
  rw [list_schedules] at hx
  have := (List.perm_insertionSort schedule_order _).mem_iff.mp hx
  exact List.mem_of_mem_filter this

theorem generate_phases_inv {store : Store} {m : MarketRow} {a b : StrOrDate}
    {l : List Phase} (h : generate_phases store m a b = .ok l) :
    ∃ ds de, validate_date_arg a = .ok ds ∧ validate_date_arg b = .ok de ∧
      ds.toOrdinal ≤ de.toOrdinal ∧
      run_dates store (list_schedules store m.fin_id)
        (holidays_between store m.fin_id
          (Date.fromOrdinal (ds.toOrdinal - MAX_OFFSET_DAYS)).isoformat
          de.isoformat)
        ds.toOrdinal
        (List.range' (ds.toOrdinal - MAX_OFFSET_DAYS)
          (de.toOrdinal + 1 - (ds.toOrdinal - MAX_OFFSET_DAYS))) = .ok l := by
  rw [generate_phases] at h
  rcases ha : validate_date_arg a with e | ds
  · rw [ha] at h
    exact absurd h (by simp [Bind.bind, Except.bind])
  · rw [ha] at h
    rcases hb : validate_date_arg b with e | de
    · rw [hb] at h
      exact absurd h (by simp [Bind.bind, Except.bind])
    · rw [hb] at h
      simp only [Bind.bind, Except.bind, validate_range_args] at h
      by_cases hr : de.toOrdinal < ds.toOrdinal
      · rw [if_pos hr] at h
        exact absurd h (by simp)
      · rw [if_neg hr] at h
        exact ⟨ds, de, rfl, rfl, not_lt.mp hr, h⟩

/-! ## C3: lookback pruning and window clipping -/

/-- C3: every emitted phase ends on or after the requested window start:
the scan runs over `List.range'` from `start − MAX_OFFSET_DAYS`, a
surviving schedule whose end date `d + offset_days` precedes the start is
suppressed, and one whose start date precedes the window but whose end
date lies at or after it is still emitted. -/
theorem lookback_window_clipping (store : Store) (m : MarketRow) (a b : StrOrDate)
    (ds de : Date) (l : List Phase)
    (ha : validate_date_arg a = .ok ds) (hb : validate_date_arg b = .ok de)
    (h : generate_phases store m a b = .ok l) :
    (∀ p ∈ l, ds.toOrdinal ≤ p.«end».ordinal)
    ∧ (∀ d fs s', d ∈ List.range' (ds.toOrdinal - MAX_OFFSET_DAYS)
          (de.toOrdinal + 1 - (ds.toOrdinal - MAX_OFFSET_DAYS)) →
        found_schedules_for_date store (list_schedules store m.fin_id)
          (holidays_between store m.fin_id
            (Date.fromOrdinal (ds.toOrdinal - MAX_OFFSET_DAYS)).isoformat
            de.isoformat) d = .ok fs →
        s' ∈ fs → ds.toOrdinal ≤ d + s'.offset_days →
        ∃ p ∈ l, p.start.ordinal = d ∧ p.«end».ordinal = d + s'.offset_days ∧
          p.start.time = s'.start ∧ p.«end».time = s'.«end») := by
  obtain ⟨ds', de', ha', hb', hle, hrun⟩ := generate_phases_inv h
  rw [ha] at ha'
  rw [hb] at hb'
  have hds : ds' = ds := (Except.ok.inj ha').symm
  have hde : de' = de := (Except.ok.inj hb').symm
  subst hds
  subst hde
  constructor
  · intro p hp
    obtain ⟨d, hd, sub, hsub, hp'⟩ := run_dates_mem hrun p hp
    obtain ⟨fs, hfs, hmat⟩ := phases_for_date_inv hsub
    exact (materialize_phases_mem hmat p hp').1
  · intro d fs s' hd hfs hs' hoff
    obtain ⟨sub, hsub, hin⟩ := run_dates_complete hrun d hd
    obtain ⟨fs2, hfs2, hmat⟩ := phases_for_date_inv hsub
    have hfq : fs2 = fs := by
      rw [hfs] at hfs2
      exact (Except.ok.inj hfs2).symm
    subst hfq
    obtain ⟨pt, hpt, hmem⟩ := materialize_phases_complete hmat s' hs' hoff
    exact ⟨mkPhase pt s' d (d + s'.offset_days), hin _ hmem, rfl, rfl, rfl, rfl⟩

theorem lookback_window_clipping_witness :
    (∀ p ∈ [witnessPhase], (Date.mk 2024 1 15).toOrdinal ≤ p.«end».ordinal)
    ∧ (∃ p ∈ [witnessPhase], p.start.ordinal = 738900 ∧
        p.«end».ordinal = 738900 + seasonalSched.offset_days ∧
        p.start.time = seasonalSched.start ∧ p.«end».time = seasonalSched.«end») := by
  have hc := lookback_window_clipping seasonStore mT
    (.str "2024-01-15") (.str "2024-01-15") ⟨2024, 1, 15⟩ ⟨2024, 1, 15⟩
    [witnessPhase] (by decide) (by decide) (by decide)
  refine ⟨hc.1, hc.2 738900 [seasonalSched] seasonalSched (by decide) (by decide)
    (by decide) (by decide)⟩

/-! ## C4: total ordering of the emitted sequence -/

/-- C4: the emitted sequence is totally ordered — dates appear in
non-decreasing calendar order (strictly increasing ordinals across
dates, equal within one), and within a single date the selected
schedules are sorted by the pair (start time, duration), so phases carry
non-decreasing start times. -/
theorem phases_totally_ordered (store : Store) (m : MarketRow) (a b : StrOrDate) :
    (∀ l, generate_phases store m a b = .ok l → l.Pairwise phaseOrd)
    ∧ (∀ all holidays current fs,
        found_schedules_for_date store all holidays current = .ok fs →
        fs.Pairwise schedLe) := by
  constructor
  · intro l h
    obtain ⟨ds, de, _, _, _, hrun⟩ := generate_phases_inv h
    exact run_dates_pairwise hrun (List.pairwise_lt_range' _ _)
  · intro all holidays current fs h
    exact found_schedules_sorted h

theorem phases_totally_ordered_witness :
    List.Pairwise phaseOrd [witnessPhase]
    ∧ List.Pairwise schedLe [seasonalSched] :=
  ⟨(phases_totally_ordered seasonStore mT (.str "2024-01-15") (.str "2024-01-15")).1
      [witnessPhase] (by decide),
   (phases_totally_ordered seasonStore mT (.str "2024-01-15") (.str "2024-01-15")).2
      (list_schedules seasonStore "T.X")
      (holidays_between seasonStore "T.X" "2024-01-13" "2024-01-15")
      738900 [seasonalSched] (by decide)⟩

/-! ## C5: every phase starts before it ends -/

/-- C5: for well-formed schedule data (a zero-offset schedule has its
start time before its end time), every emitted phase satisfies
`start < end` as zoned instants — also when the phase straddles local
midnight because `offset_days > 0`, since then the end day is strictly
later. -/
theorem phase_start_before_end (store : Store) (m : MarketRow) (a b : StrOrDate)
    (l : List Phase)
    (hwf : ∀ s ∈ store.schedules, s.offset_days = 0 → strLt s.start s.«end» = true)
    (h : generate_phases store m a b = .ok l) :
    ∀ p ∈ l, instantLt p.start p.«end» := by
  obtain ⟨ds, de, _, _, _, hrun⟩ := generate_phases_inv h
  intro p hp
  obtain ⟨d, hd, sub, hsub, hp'⟩ := run_dates_mem hrun p hp
  obtain ⟨fs, hfs, hmat⟩ := phases_for_date_inv hsub
  obtain ⟨_, _, s', hs', pt, _, hpe⟩ := materialize_phases_mem hmat p hp'
  have hsm : s' ∈ store.schedules :=
    list_schedules_subset _ (found_schedules_subset hfs s' hs')
  subst hpe
  rcases Nat.eq_zero_or_pos s'.offset_days with hz | hpos
  · exact ⟨rfl, Or.inr ⟨by simp [mkPhase, hz], hwf s' hsm hz⟩⟩
  · exact ⟨rfl, Or.inl (Nat.lt_add_of_pos_right hpos)⟩

theorem phase_start_before_end_witness :
    instantLt witnessPhase.start witnessPhase.«end» :=
  phase_start_before_end seasonStore mT (.str "2024-01-15") (.str "2024-01-15")
    [witnessPhase] (by decide) (by decide) witnessPhase (by decide)

/-! ## C8: invalid arguments abort before any store access -/

theorem validate_date_arg_error {a : StrOrDate} {e : Err}
    (h : validate_date_arg a = .error e) : e = .invalidArgument := by
  rcases a with s | d
  · rw [validate_date_arg] at h
    rcases hp : parseDate s with _ | d'
    · rw [hp] at h
      simp only [Except.error.injEq] at h
      exact h.symm
    · rw [hp] at h
      exact absurd h (by simp)
  · simp [validate_date_arg] at h

/-- C8: `generate_phases` and `list_holidays` fail with
`InvalidArgument` when a date argument is unparseable or when
`start > end`, uniformly in the store (the abort happens before any
store access); with valid arguments both proceed — `list_holidays`
returns its row filter and `generate_phases` never raises
`InvalidArgument`. -/
theorem invalid_arguments_abort (m : MarketRow) (a b : StrOrDate) :
    ((validate_date_arg a = .error .invalidArgument ∨
      validate_date_arg b = .error .invalidArgument ∨
      (∃ ds de, validate_date_arg a = .ok ds ∧ validate_date_arg b = .ok de ∧
        de.toOrdinal < ds.toOrdinal)) →
      ∀ store, generate_phases store m a b = .error .invalidArgument ∧
        list_holidays store m a b = .error .invalidArgument)
    ∧ (∀ ds de, validate_date_arg a = .ok ds → validate_date_arg b = .ok de →
        ds.toOrdinal ≤ de.toOrdinal →
        ∀ store, generate_phases store m a b ≠ .error .invalidArgument ∧
          list_holidays store m a b =
            .ok (holidays_between store m.fin_id ds.isoformat de.isoformat)) := by
  constructor
  · intro hbad store
    rcases hbad with hbad | hbad | ⟨ds, de, ha, hb, hlt⟩
    · constructor <;>
        simp [generate_phases, list_holidays, hbad, Bind.bind, Except.bind]
    · rcases ha : validate_date_arg a with e | ds
      · have he := validate_date_arg_error ha
        subst he
        constructor <;>
          simp [generate_phases, list_holidays, ha, Bind.bind, Except.bind]
      · constructor <;>
          simp [generate_phases, list_holidays, ha, hbad, Bind.bind, Except.bind]
    · constructor <;>
        simp [generate_phases, list_holidays, ha, hb, validate_range_args, hlt,
          Bind.bind, Except.bind]
  · intro ds de ha hb hle store
    have hnlt : ¬ de.toOrdinal < ds.toOrdinal := not_lt.mpr hle
    constructor
    · intro hcon
      rw [generate_phases] at hcon
      rw [ha, hb] at hcon
      simp only [Bind.bind, Except.bind, validate_range_args, if_neg hnlt] at hcon
      exact absurd (run_dates_error hcon) (by simp)
    · rw [list_holidays]
      rw [ha, hb]
      simp [Bind.bind, Except.bind, validate_range_args, if_neg hnlt]

theorem invalid_arguments_abort_witness :
    (generate_phases lookupStore mkA (.str "bogus") (.str "2024-02-06") =
        .error .invalidArgument
      ∧ list_holidays lookupStore mkA (.str "bogus") (.str "2024-02-06") =
        .error .invalidArgument)
    ∧ (generate_phases lookupStore mkA (.str "2024-02-07") (.str "2024-02-06") =
        .error .invalidArgument
      ∧ list_holidays lookupStore mkA (.str "2024-02-07") (.str "2024-02-06") =
        .error .invalidArgument)
    ∧ (generate_phases lookupStore mkA (.str "2024-02-06") (.str "2024-02-06") ≠
        .error .invalidArgument
      ∧ list_holidays lookupStore mkA (.str "2024-02-06") (.str "2024-02-06") =
        .ok (holidays_between lookupStore mkA.fin_id "2024-02-06" "2024-02-06")) :=
  ⟨(invalid_arguments_abort mkA (.str "bogus") (.str "2024-02-06")).1
      (Or.inl (by decide)) lookupStore,
   (invalid_arguments_abort mkA (.str "2024-02-07") (.str "2024-02-06")).1
      (Or.inr (Or.inr ⟨⟨2024, 2, 7⟩, ⟨2024, 2, 6⟩, by decide, by decide, by decide⟩))
      lookupStore,
   (invalid_arguments_abort mkA (.str "2024-02-06") (.str "2024-02-06")).2
      ⟨2024, 2, 6⟩ ⟨2024, 2, 6⟩ (by decide) (by decide) (by decide) lookupStore⟩

end TradingHours
